import Mathlib

/-!
Verification of the Yul `VarNameCleaner` optimiser pass
(src/libyul/optimiser/VarNameCleaner.cpp / .h).

The pass walks the IR once.  At each `VariableDeclaration` it rewrites every
declared name through `makeCleanName`; at each `Identifier` it rewrites the
reference through `getCleanName`.  The mutable state is `m_usedNames`, an
`unordered_map<string,string>` from old names to assigned final names, plus a
sorted blacklist (membership tested with `binary_search`) and a dialect
queried through `builtin`.

The embedding below models strings as Lean `String`s, the unordered map as an
association list with insert-or-assign (`rset`) and lookup (`rget`), the
sorted-vector-plus-`binary_search` blacklist as plain list membership (sorting
a vector and binary-searching it decides exactly membership in the original
collection), and the dialect as its `builtin` predicate.  The regex
`(_+[0-9]+)+$` together with `std::regex_search` is modelled by `findRunStart`,
which returns the position of the leftmost (hence maximal) trailing run of the
language `(_+[0-9]+)+`; the language itself is `GroupRun` / `isSuffixRun`.
-/

namespace VarNameCleaner

/-- The Yul dialect, reduced to the only capability the pass uses:
the `builtin` query (`m_dialect.builtin(name)` in the source). -/
structure Dialect where
  builtin : String → Bool

/-- Configuration of one `VarNameCleaner` instance: the borrowed dialect and
the caller-supplied blacklist (the source sorts it in the constructor and
tests membership with `std::binary_search`; we keep the list and test
membership directly, which is the same predicate). -/
structure Cfg where
  dialect : Dialect
  blacklist : List String

/-- The pass state `m_usedNames : unordered_map<string,string>`, modelled as
an association list from old name to new name. -/
abbrev Registry := List (String × String)

/-- Map lookup (`m_usedNames.find` / `m_usedNames.count`). -/
def rget : Registry → String → Option String
  | [], _ => none
  | (k, v) :: t, n => if k = n then some v else rget t n

/-- Map insert-or-assign (`m_usedNames[key] = value`). -/
def rset (reg : Registry) (k v : String) : Registry :=
  (k, v) :: reg.filter (fun p => p.1 ≠ k)

/-- Whether the last character of the list is a digit (`false` when empty). -/
def lastDigit (s : List Char) : Bool :=
  match s.getLast? with
  | some d => d.isDigit
  | none => false

/-- Decides membership of a character list in the language of the regular
expression `(_+[0-9]+)+`: nonempty, first character an underscore, last
character a digit, and every character an underscore or a digit.  (Maximal
runs of equal character classes then alternate, giving the groups; the
equivalence with the group grammar is `groupRun_iff` below.) -/
def isSuffixRun (s : List Char) : Bool :=
  match s with
  | [] => false
  | c :: _ =>
      c == '_' && s.all (fun d => d == '_' || d.isDigit) && lastDigit s

/-- Position of the leftmost suffix of the string that lies in the language
`(_+[0-9]+)+`, i.e. the start of the match of `std::regex_search` with the
anchored pattern `(_+[0-9]+)+$`; `none` when no suffix matches. -/
def findRunStart : List Char → Nat → Option Nat
  | [], _ => none
  | c :: t, p =>
      if isSuffixRun (c :: t) then some p else findRunStart t (p + 1)

/-- `VarNameCleaner::stripSuffix`: if the name has a trailing run matching
`(_+[0-9]+)+$` whose removal leaves a nonempty prefix, and that prefix is not
blacklisted, return the prefix; otherwise `none`. -/
def stripSuffix (cfg : Cfg) (name : String) : Option String :=
  match findRunStart name.toList 0 with
  | some p =>
      if 0 < p then
        if cfg.blacklist.contains (String.mk (name.toList.take p)) then none
        else some (String.mk (name.toList.take p))
      else none
  | none => none

/-- The numbered fallback name `*newName + "_" + to_string(i)`. -/
def fallbackName (base : String) (i : Nat) : String :=
  base ++ "_" ++ toString i

/-- The fallback search loop of `VarNameCleaner::findCleanName`: starting at
index `i`, return the first `base_i` that is neither a registry key nor
blacklisted.  The C++ loop runs `i` up to `SIZE_MAX` and hits a `yulAssert`
on exhaustion; here the loop carries explicit fuel and returns `none` on
exhaustion, modelling the assertion failure. -/
def findFreeSuffix (reg : Registry) (bl : List String) (base : String) :
    Nat → Nat → Option String
  | 0, _ => none
  | fuel + 1, i =>
      let cand := fallbackName base i
      if (rget reg cand).isNone && !bl.contains cand then some cand
      else findFreeSuffix reg bl base fuel (i + 1)

/-- Fuel passed to the fallback loop: by pigeonhole, among
`reg.length + bl.length + 1` pairwise distinct candidate names at least one
is neither a registry key nor blacklisted, so this bound reproduces the C++
`SIZE_MAX` loop on every reachable input. -/
def fuelFor (reg : Registry) (bl : List String) : Nat :=
  reg.length + bl.length + 1

/-- `VarNameCleaner::findCleanName`: strip the suffix; accept the bare
candidate when it is neither a dialect builtin nor a registry key; otherwise
search numbered fallbacks; `none` when no suffix was strippable. -/
def findCleanName (cfg : Cfg) (reg : Registry) (name : String) : Option String :=
  match stripSuffix cfg name with
  | some newName =>
      if !cfg.dialect.builtin newName && (rget reg newName).isNone then
        some newName
      else
        findFreeSuffix reg cfg.blacklist newName (fuelFor reg cfg.blacklist) 1
  | none => none

/-- `VarNameCleaner::makeCleanName`: resolve through `findCleanName`; on
success record `newName ↦ newName` then `name ↦ newName`; on failure record
`name ↦ name` so nobody else takes the name.  Returns the optional new name
together with the updated registry. -/
def makeCleanName (cfg : Cfg) (reg : Registry) (name : String) :
    Option String × Registry :=
  match findCleanName cfg reg name with
  | some newName => (some newName, rset (rset reg newName newName) name newName)
  | none => (none, rset reg name name)

/-- `VarNameCleaner::getCleanName`: return the mapped name when an entry
exists and the name was changed, `none` otherwise. -/
def getCleanName (reg : Registry) (name : String) : Option String :=
  match rget reg name with
  | some v => if v = name then none else some v
  | none => none

/-- The loop body of `operator()(VariableDeclaration&)`: rewrite each declared
name in order through `makeCleanName`, keeping a name unchanged when the
resolver returns `none`. -/
def declVisitNames (cfg : Cfg) : Registry → List String → List String × Registry
  | reg, [] => ([], reg)
  | reg, n :: rest =>
      let r := makeCleanName cfg reg n
      let rec₁ := declVisitNames cfg r.2 rest
      ((match r.1 with | some f => f | none => n) :: rec₁.1, rec₁.2)

/-- The body of `operator()(Identifier&)`: rewrite the reference when
`getCleanName` reports a changed name, else leave it untouched. -/
def refVisit (reg : Registry) (name : String) : String :=
  match getCleanName reg name with
  | some m => m
  | none => name

/-- Modelled from the spec: the traversal framework (`ASTModifier` /
`AsmData`, not part of the sources under study) visits the IR in program
order and invokes exactly two actions, one at each declaration site and one
at each reference site.  We therefore model an IR subtree as the sequence of
visit events it produces: a declaration event carrying its declared names in
order, or a reference event carrying the referenced name. -/
inductive Node where
  | decl : List String → Node
  | ref : String → Node
deriving DecidableEq

/-- One pass run: traverse the event sequence once, threading the registry,
applying the declaration action and the reference action. -/
def runPass (cfg : Cfg) : Registry → List Node → List Node × Registry
  | reg, [] => ([], reg)
  | reg, Node.decl ns :: rest =>
      let d := declVisitNames cfg reg ns
      let r := runPass cfg d.2 rest
      (Node.decl d.1 :: r.1, r.2)
  | reg, Node.ref n :: rest =>
      let r := runPass cfg reg rest
      (Node.ref (refVisit reg n) :: r.1, r.2)

/-- All names declared in an event sequence, in visit order. -/
def declaredNames : List Node → List String
  | [] => []
  | Node.decl ns :: rest => ns ++ declaredNames rest
  | Node.ref _ :: rest => declaredNames rest

/-- Registry produced by a run consisting of the given declarations, starting
from the empty registry (reference visits do not touch the registry, so this
is the registry of any run with these declarations). -/
def runDecls (cfg : Cfg) (ns : List String) : Registry :=
  (declVisitNames cfg [] ns).2

/-- The final name the finished run assigned to a name: the registry image
when present, the name itself otherwise. -/
def finalOf (reg : Registry) (n : String) : String :=
  (rget reg n).getD n

/-- Rewrite every name of a visit event by a fixed renaming. -/
def renameNode (f : String → String) : Node → Node
  | Node.decl ns => Node.decl (ns.map f)
  | Node.ref n => Node.ref (f n)

/-- Membership in the language of the regular expression `(_+[0-9]+)+`, as
written: one or more groups, each one or more underscores followed by one or
more digits. -/
inductive GroupRun : List Char → Prop where
  | last (u d : List Char) : u ≠ [] → d ≠ [] → (∀ c ∈ u, c = '_') →
      (∀ c ∈ d, c.isDigit) → GroupRun (u ++ d)
  | cons (u d t : List Char) : u ≠ [] → d ≠ [] → (∀ c ∈ u, c = '_') →
      (∀ c ∈ d, c.isDigit) → GroupRun t → GroupRun (u ++ (d ++ t))

/-- A name handed out as some declaration's final name: it occurs as the
mapped value of a registry entry. -/
def isFinalName (reg : Registry) (n : String) : Prop :=
  ∃ k, rget reg k = some n

/-- Invariant of the registry during a pass run whose declarations so far are
`pre`: every mapped value is itself a key; every key with no trailing
suffix-run occurs as a mapped value; and every entry whose value differs from
its key is keyed by a previously declared name. -/
structure Inv (pre : List String) (reg : Registry) : Prop where
  valKey : ∀ n v, rget reg n = some v → (rget reg v).isSome
  norunVal : ∀ n, (rget reg n).isSome → findRunStart n.toList 0 = none →
    isFinalName reg n
  changedDecl : ∀ n v, rget reg n = some v → v ≠ n → n ∈ pre

/-- A dialect with no builtins and an empty blacklist, for concrete runs. -/
def cfgNoBl : Cfg := ⟨⟨fun _ => false⟩, []⟩

/-- A dialect with no builtins and the blacklist `["x"]`. -/
def cfgBlX : Cfg := ⟨⟨fun _ => false⟩, ["x"]⟩

/-- A dialect whose only builtin is `"a"`, with an empty blacklist. -/
def cfgBuiltinA : Cfg := ⟨⟨fun s => s == "a"⟩, []⟩

/-! ### Registry lemmas -/

theorem rget_filter_ne (k n : String) (hkn : ¬k = n) :
    ∀ t : Registry, rget (t.filter (fun p => p.1 ≠ k)) n = rget t n := by
  intro t
  induction t with
  | nil => rfl
  | cons a t ih =>
    rw [List.filter_cons]
    by_cases hak : a.1 = k
    · have han : ¬a.1 = n := by rw [hak]; exact hkn
      rw [if_neg (by simp [hak])]
      rw [ih]
      conv_rhs => rw [rget]
      rw [if_neg han]
    · rw [if_pos (by simp [hak])]
      rw [rget, rget]
      by_cases han : a.1 = n
      · rw [if_pos han, if_pos han]
      · rw [if_neg han, if_neg han]; exact ih

theorem rget_rset (reg : Registry) (k v n : String) :
    rget (rset reg k v) n = if k = n then some v else rget reg n := by
  unfold rset
  rw [rget]
  by_cases h : k = n
  · rw [if_pos h, if_pos h]
  · rw [if_neg h, if_neg h]
    exact rget_filter_ne k n h reg

theorem rget_rset_isSome (reg : Registry) (k v n : String)
    (h : (rget reg n).isSome) : (rget (rset reg k v) n).isSome := by
  rw [rget_rset]
  by_cases hk : k = n <;> simp [hk, h]

/-! ### stripSuffix helpers -/

theorem stripSuffix_shape (cfg : Cfg) (n c : String)
    (h : stripSuffix cfg n = some c) :
    ∃ p, findRunStart n.toList 0 = some p ∧ 0 < p ∧
      c = String.mk (n.toList.take p) ∧ cfg.blacklist.contains c = false := by
  unfold stripSuffix at h
  split at h
  case h_2 => exact absurd h (by simp)
  case h_1 p hfr =>
    split at h
    case isFalse => exact absurd h (by simp)
    case isTrue hp =>
      split at h
      case isTrue => exact absurd h (by simp)
      case isFalse hbl =>
        have hc := Option.some_injective _ h
        refine ⟨p, hfr, hp, hc.symm, ?_⟩
        rw [← hc]
        simpa using hbl

theorem stripSuffix_not_bl (cfg : Cfg) (n c : String)
    (h : stripSuffix cfg n = some c) : cfg.blacklist.contains c = false :=
  (stripSuffix_shape cfg n c h).choose_spec.2.2.2

/-! ### fallback name lemmas -/

theorem fallbackName_ne_base (base : String) (i : Nat) :
    fallbackName base i ≠ base := by
  intro h
  have hl := congrArg String.length h
  rw [fallbackName, String.length_append, String.length_append] at hl
  have : ("_" : String).length = 1 := rfl
  omega

/-- Soundness of the fallback loop: any returned name is a fallback name with
index at least the starting index, is neither a registry key nor blacklisted,
and every smaller index from the starting index on was blocked. -/
theorem findFreeSuffix_props (reg : Registry) (bl : List String) (base : String) :
    ∀ fuel i r, findFreeSuffix reg bl base fuel i = some r →
      ∃ j, i ≤ j ∧ r = fallbackName base j ∧ rget reg r = none ∧
        bl.contains r = false ∧
        ∀ m, i ≤ m → m < j →
          ¬((rget reg (fallbackName base m)).isNone ∧
            bl.contains (fallbackName base m) = false) := by
  intro fuel
  induction fuel with
  | zero => intro i r h; exact absurd h (by simp [findFreeSuffix])
  | succ fuel ih =>
    intro i r h
    rw [findFreeSuffix] at h
    by_cases hc : ((rget reg (fallbackName base i)).isNone
        && !bl.contains (fallbackName base i)) = true
    · simp only [hc, if_true] at h
      rcases Bool.and_eq_true_iff.mp hc with ⟨h1, h2⟩
      refine ⟨i, le_refl i, (Option.some_injective _ h).symm, ?_, ?_, ?_⟩
      · rw [← (Option.some_injective _ h)]; exact Option.isNone_iff_eq_none.mp h1
      · rw [← (Option.some_injective _ h)]; simpa using h2
      · intro m h1 h2; omega
    · simp only [hc, if_false] at h
      rcases ih (i + 1) r h with ⟨j, hij, hr, hfree, hbl, hmin⟩
      refine ⟨j, by omega, hr, hfree, hbl, ?_⟩
      intro m him hmj
      by_cases hmi : m = i
      · subst hmi
        intro ⟨g1, g2⟩
        exact hc (by rw [g1, g2]; rfl)
      · exact hmin m (by omega) hmj

/-- Completeness of the fallback loop: if `j` is the least admissible index at
or after the starting index and the fuel reaches it, the loop returns
`base_j`. -/
theorem findFreeSuffix_finds (reg : Registry) (bl : List String) (base : String) :
    ∀ fuel i j, i ≤ j → j < i + fuel →
      (rget reg (fallbackName base j)).isNone = true →
      bl.contains (fallbackName base j) = false →
      (∀ m, i ≤ m → m < j →
        ¬((rget reg (fallbackName base m)).isNone ∧
          bl.contains (fallbackName base m) = false)) →
      findFreeSuffix reg bl base fuel i = some (fallbackName base j) := by
  intro fuel
  induction fuel with
  | zero => intro i j h1 h2; omega
  | succ fuel ih =>
    intro i j hij hlt hfree hbl hmin
    rw [findFreeSuffix]
    show (if ((rget reg (fallbackName base i)).isNone
          && !bl.contains (fallbackName base i)) = true
        then some (fallbackName base i)
        else findFreeSuffix reg bl base fuel (i + 1)) = some (fallbackName base j)
    by_cases hji : j = i
    · subst hji
      rw [if_pos (by rw [hfree, hbl]; rfl)]
    · have hc : ¬(((rget reg (fallbackName base i)).isNone
          && !bl.contains (fallbackName base i)) = true) := by
        intro hcc
        rcases Bool.and_eq_true_iff.mp hcc with ⟨h1, h2⟩
        exact hmin i (le_refl i) (by omega) ⟨h1, by simpa using h2⟩
      rw [if_neg hc]
      exact ih (i + 1) j (by omega) (by omega) hfree hbl
        (fun m h1 h2 => hmin m (by omega) h2)

/-! ### findCleanName properties -/

theorem findCleanName_props (cfg : Cfg) (reg : Registry) (n r : String)
    (h : findCleanName cfg reg n = some r) :
    rget reg r = none ∧ cfg.blacklist.contains r = false ∧
      ∃ c, stripSuffix cfg n = some c ∧
        ((r = c ∧ cfg.dialect.builtin c = false) ∨
          ∃ j, 1 ≤ j ∧ r = fallbackName c j) := by
  unfold findCleanName at h
  split at h
  case h_2 => exact absurd h (by simp)
  case h_1 c hs =>
    split at h
    case isTrue hb =>
      have hrc := Option.some_injective _ h
      rcases Bool.and_eq_true_iff.mp hb with ⟨h1, h2⟩
      subst hrc
      exact ⟨Option.isNone_iff_eq_none.mp h2, stripSuffix_not_bl cfg n c hs,
        c, hs, Or.inl ⟨rfl, by simpa using h1⟩⟩
    case isFalse hb =>
      rcases findFreeSuffix_props reg cfg.blacklist c _ _ _ h with
        ⟨j, hj, hr, hfree, hbl, _⟩
      exact ⟨hfree, hbl, c, hs, Or.inr ⟨j, hj, hr⟩⟩

theorem findCleanName_free (cfg : Cfg) (reg : Registry) (n r : String)
    (h : findCleanName cfg reg n = some r) : rget reg r = none :=
  (findCleanName_props cfg reg n r h).1

/-! ### makeCleanName lemmas -/

theorem makeCleanName_self (cfg : Cfg) (reg : Registry) (n : String) :
    rget (makeCleanName cfg reg n).2 n
      = some ((makeCleanName cfg reg n).1.getD n) := by
  unfold makeCleanName
  rcases hf : findCleanName cfg reg n with _ | f
  · simp [rget_rset]
  · simp [rget_rset]

theorem makeCleanName_frozen (cfg : Cfg) (reg : Registry) (o n v : String)
    (hne : n ≠ o) (h : rget reg n = some v) :
    rget (makeCleanName cfg reg o).2 n = some v := by
  unfold makeCleanName
  rcases hf : findCleanName cfg reg o with _ | f
  · rw [rget_rset, if_neg (fun he => hne he.symm)]; exact h
  · have hfn : f ≠ n := by
      intro he
      rw [he] at hf
      rw [findCleanName_free cfg reg o n hf] at h
      exact absurd h (by simp)
    rw [rget_rset, if_neg (fun he => hne he.symm), rget_rset, if_neg hfn]
    exact h

theorem makeCleanName_mono (cfg : Cfg) (reg : Registry) (o n : String)
    (h : (rget reg n).isSome) : (rget (makeCleanName cfg reg o).2 n).isSome := by
  unfold makeCleanName
  rcases hf : findCleanName cfg reg o with _ | f
  · exact rget_rset_isSome _ _ _ _ h
  · exact rget_rset_isSome _ _ _ _ (rget_rset_isSome _ _ _ _ h)

/-! ### declVisitNames lemmas -/

theorem declVisitNames_mono (cfg : Cfg) (ns : List String) :
    ∀ reg n, (rget reg n).isSome →
      (rget (declVisitNames cfg reg ns).2 n).isSome := by
  induction ns with
  | nil => intro reg n h; exact h
  | cons o rest ih =>
    intro reg n h
    rw [declVisitNames]
    exact ih _ n (makeCleanName_mono cfg reg o n h)

theorem declVisitNames_frozen (cfg : Cfg) (ns : List String) :
    ∀ reg n v, n ∉ ns → rget reg n = some v →
      rget (declVisitNames cfg reg ns).2 n = some v := by
  induction ns with
  | nil => intro reg n v _ h; exact h
  | cons o rest ih =>
    intro reg n v hn h
    rw [declVisitNames]
    exact ih _ n v (fun hm => hn (List.mem_cons_of_mem o hm))
      (makeCleanName_frozen cfg reg o n v (fun he => hn (he ▸ List.mem_cons_self n rest)) h)

/-! ### runPass registry lemmas -/

theorem runPass_reg_decls (cfg : Cfg) :
    ∀ nodes reg, (runPass cfg reg nodes).2
      = (declVisitNames cfg reg (declaredNames nodes)).2 := by
  intro nodes
  induction nodes with
  | nil => intro reg; rfl
  | cons hd rest ih =>
    intro reg
    cases hd with
    | decl ns =>
      rw [runPass, declaredNames]
      rw [ih]
      induction ns generalizing reg with
      | nil => rfl
      | cons a t iht =>
        rw [declVisitNames, List.cons_append, declVisitNames]
        exact iht _
    | ref n =>
      rw [runPass, declaredNames]
      exact ih reg

theorem runPass_mono (cfg : Cfg) (nodes : List Node) (reg : Registry)
    (n : String) (h : (rget reg n).isSome) :
    (rget (runPass cfg reg nodes).2 n).isSome := by
  rw [runPass_reg_decls]
  exact declVisitNames_mono cfg _ reg n h

theorem runPass_frozen (cfg : Cfg) (nodes : List Node) (reg : Registry)
    (n v : String) (hn : n ∉ declaredNames nodes) (h : rget reg n = some v) :
    rget (runPass cfg reg nodes).2 n = some v := by
  rw [runPass_reg_decls]
  exact declVisitNames_frozen cfg _ reg n v hn h

/-! ### Suffix-run combinatorics -/

theorem lastDigit_eq (s : List Char) (z : Char) (h : s.getLast? = some z) :
    lastDigit s = z.isDigit := by
  rw [lastDigit, h]

theorem isSuffixRun_ne_nil {s : List Char} (h : isSuffixRun s = true) :
    s ≠ [] := by
  intro he; subst he; exact absurd h (by rw [isSuffixRun]; simp)

theorem isSuffixRun_parts {s : List Char} (h : isSuffixRun s = true) :
    s.head? = some '_' ∧ (∀ c ∈ s, c = '_' ∨ c.isDigit = true) ∧
      ∃ z, s.getLast? = some z ∧ z.isDigit = true := by
  cases s with
  | nil => exact absurd h (by rw [isSuffixRun]; simp)
  | cons c t =>
    rw [isSuffixRun] at h
    rcases Bool.and_eq_true_iff.mp h with ⟨h1, h2⟩
    rcases Bool.and_eq_true_iff.mp h1 with ⟨hc, hall⟩
    refine ⟨?_, ?_, ?_⟩
    · rw [List.head?_cons]
      exact congrArg some (by simpa using hc)
    · intro d hd
      have ho := List.all_eq_true.mp hall d hd
      rcases Bool.or_eq_true_iff.mp ho with h3 | h3
      · exact Or.inl (by simpa using h3)
      · exact Or.inr h3
    · rcases hgl : (c :: t).getLast? with _ | z
      · rw [lastDigit, hgl] at h2; exact absurd h2 (by simp)
      · rw [lastDigit_eq _ z hgl] at h2; exact ⟨z, rfl, h2⟩

theorem isSuffixRun_intro {s : List Char} (hh : s.head? = some '_')
    (hall : ∀ c ∈ s, c = '_' ∨ c.isDigit = true) (hl : lastDigit s = true) :
    isSuffixRun s = true := by
  cases s with
  | nil => exact absurd hh (by simp)
  | cons c t =>
    rw [List.head?_cons] at hh
    have hc : c = '_' := Option.some_injective _ hh
    rw [isSuffixRun]
    refine Bool.and_eq_true_iff.mpr ⟨Bool.and_eq_true_iff.mpr ⟨by simp [hc], ?_⟩, hl⟩
    refine List.all_eq_true.mpr ?_
    intro d hd
    rcases hall d hd with h3 | h3
    · exact Bool.or_eq_true_iff.mpr (Or.inl (by simp [h3]))
    · exact Bool.or_eq_true_iff.mpr (Or.inr h3)

theorem isSuffixRun_append {x y : List Char} (hx : isSuffixRun x = true)
    (hy : isSuffixRun y = true) : isSuffixRun (x ++ y) = true := by
  rcases isSuffixRun_parts hx with ⟨hxh, hxall, _⟩
  rcases isSuffixRun_parts hy with ⟨-, hyall, z, hz, hzd⟩
  apply isSuffixRun_intro
  · rcases List.exists_cons_of_ne_nil (isSuffixRun_ne_nil hx) with ⟨c, x1, rfl⟩
    rw [List.head?_cons] at hxh
    rw [List.cons_append, List.head?_cons]
    exact hxh
  · intro c hc
    rcases List.mem_append.mp hc with hm | hm
    · exact hxall c hm
    · exact hyall c hm
  · have hgl : (x ++ y).getLast? = some z := by
      rw [List.getLast?_append_of_ne_nil x (isSuffixRun_ne_nil hy)]
      exact hz
    rw [lastDigit_eq _ z hgl]
    exact hzd

/-! ### findRunStart specification -/

theorem findRunStart_shift (l : List Char) :
    ∀ i, findRunStart l i = (findRunStart l 0).map (· + i) := by
  induction l with
  | nil => intro i; rfl
  | cons c t ih =>
    intro i
    rw [findRunStart, findRunStart]
    by_cases hr : isSuffixRun (c :: t) = true
    · rw [if_pos hr, if_pos hr]
      simp
    · rw [if_neg hr, if_neg hr]
      rw [ih (i + 1), ih 1]
      rcases findRunStart t 0 with _ | q
      · rfl
      · simp only [Option.map_some']
        exact congrArg some (by omega)

theorem findRunStart_zero_some (l : List Char) (p : Nat)
    (h : findRunStart l 0 = some p) :
    isSuffixRun (l.drop p) = true ∧ ∀ q, q < p → isSuffixRun (l.drop q) = false := by
  induction l generalizing p with
  | nil => exact absurd h (by rw [findRunStart]; simp)
  | cons c t ih =>
    rw [findRunStart] at h
    by_cases hr : isSuffixRun (c :: t) = true
    · rw [if_pos hr] at h
      have hp := Option.some_injective _ h
      subst hp
      exact ⟨hr, by omega⟩
    · rw [if_neg hr] at h
      rw [findRunStart_shift t 1] at h
      rcases hq : findRunStart t 0 with _ | q
      · rw [hq] at h; exact absurd h (by simp)
      · rw [hq] at h
        simp only [Option.map_some'] at h
        have hp := Option.some_injective _ h
        rcases ih q hq with ⟨hrun, hmin⟩
        constructor
        · rw [← hp, List.drop_succ_cons]; exact hrun
        · intro m hm
          cases m with
          | zero => simpa using (Bool.not_eq_true _).mp hr
          | succ m =>
            rw [List.drop_succ_cons]
            exact hmin m (by omega)

theorem findRunStart_zero_none (l : List Char)
    (h : findRunStart l 0 = none) :
    ∀ q, isSuffixRun (l.drop q) = false := by
  induction l with
  | nil =>
    intro q
    rw [List.drop_nil]
    exact (Bool.not_eq_true _).mp (fun hc => isSuffixRun_ne_nil hc rfl)
  | cons c t ih =>
    rw [findRunStart] at h
    by_cases hr : isSuffixRun (c :: t) = true
    · rw [if_pos hr] at h; exact absurd h (by simp)
    · rw [if_neg hr] at h
      rw [findRunStart_shift t 1] at h
      have ht : findRunStart t 0 = none := by
        rcases hq : findRunStart t 0 with _ | q
        · rfl
        · rw [hq] at h; exact absurd h (by simp)
      intro q
      cases q with
      | zero => simpa using (Bool.not_eq_true _).mp hr
      | succ q =>
        rw [List.drop_succ_cons]
        exact ih ht q

/-- A stripped candidate has no suffix at all in the run language: any such
suffix would extend the matched trailing run leftwards, contradicting that
`std::regex_search` finds the leftmost (maximal) match. -/
theorem stripSuffix_cand_norun (cfg : Cfg) (n c : String)
    (h : stripSuffix cfg n = some c) : findRunStart c.toList 0 = none := by
  rcases stripSuffix_shape cfg n c h with ⟨p, hfr, hp, hc, -⟩
  rcases findRunStart_zero_some _ p hfr with ⟨hrun, hmin⟩
  have hclist : c.toList = n.toList.take p := by rw [hc]; rfl
  have hplen : p < n.toList.length := by
    by_contra hge
    rw [List.drop_eq_nil_of_le (by omega)] at hrun
    exact isSuffixRun_ne_nil hrun rfl
  rcases hq : findRunStart c.toList 0 with _ | q
  · rfl
  · exfalso
    rcases findRunStart_zero_some _ q hq with ⟨hrunq, -⟩
    rw [hclist] at hrunq
    by_cases hqp : q < p
    · have hsplit : n.toList.drop q = (n.toList.take p).drop q ++ n.toList.drop p := by
        conv_lhs => rw [← List.take_append_drop p n.toList]
        rw [List.drop_append_eq_append_drop]
        have hlen : (n.toList.take p).length = p := by
          rw [List.length_take]; omega
        rw [hlen, Nat.sub_eq_zero_of_le (by omega), List.drop_zero]
      have : isSuffixRun (n.toList.drop q) = true := by
        rw [hsplit]; exact isSuffixRun_append hrunq hrun
      rw [hmin q hqp] at this
      exact absurd this (by simp)
    · rw [List.drop_eq_nil_of_le (by rw [List.length_take]; omega)] at hrunq
      exact isSuffixRun_ne_nil hrunq rfl

/-! ### The group grammar matches the executable run test -/

theorem groupRun_to_isSuffixRun {s : List Char} (h : GroupRun s) :
    isSuffixRun s = true := by
  induction h with
  | last u d hu hd hus hds =>
    apply isSuffixRun_intro
    · rcases List.exists_cons_of_ne_nil hu with ⟨c, u1, rfl⟩
      rw [List.cons_append, List.head?_cons]
      exact congrArg some (hus c (List.mem_cons_self c u1))
    · intro c hc
      rcases List.mem_append.mp hc with hm | hm
      · exact Or.inl (hus c hm)
      · exact Or.inr (hds c hm)
    · rcases List.eq_nil_or_concat d with rfl | ⟨d1, z, rfl⟩
      · exact absurd rfl hd
      · have hgl : (u ++ d1.concat z).getLast? = some z := by
          rw [List.getLast?_append_of_ne_nil u (by simp), List.concat_eq_append,
            List.getLast?_concat]
        rw [lastDigit_eq _ z hgl]
        exact hds z (by simp)
  | cons u d t hu hd hus hds ht ih =>
    rcases isSuffixRun_parts ih with ⟨-, htall, z, hz, hzd⟩
    apply isSuffixRun_intro
    · rcases List.exists_cons_of_ne_nil hu with ⟨c, u1, rfl⟩
      rw [List.cons_append, List.head?_cons]
      exact congrArg some (hus c (List.mem_cons_self c u1))
    · intro c hc
      rcases List.mem_append.mp hc with hm | hm
      · exact Or.inl (hus c hm)
      · rcases List.mem_append.mp hm with hm2 | hm2
        · exact Or.inr (hds c hm2)
        · exact htall c hm2
    · have hgl : (u ++ (d ++ t)).getLast? = some z := by
        rw [List.getLast?_append_of_ne_nil u
            (by intro he; exact isSuffixRun_ne_nil ih (List.append_eq_nil.mp he).2),
          List.getLast?_append_of_ne_nil d (isSuffixRun_ne_nil ih)]
        exact hz
      rw [lastDigit_eq _ z hgl]
      exact hzd

theorem dropWhile_head_false (p : Char → Bool) :
    ∀ (l : List Char) (c : Char) (t : List Char),
      l.dropWhile p = c :: t → p c = false := by
  intro l
  induction l with
  | nil => intro c t h; exact absurd h (by simp)
  | cons a l1 ih =>
    intro c t h
    rw [List.dropWhile_cons] at h
    by_cases ha : p a = true
    · rw [if_pos ha] at h; exact ih c t h
    · rw [if_neg ha] at h
      have := (List.cons.injEq a l1 c t).mp h
      rw [← this.1]
      exact (Bool.not_eq_true _).mp ha

theorem isSuffixRun_to_groupRun_aux :
    ∀ (n : Nat) (s : List Char), s.length ≤ n → isSuffixRun s = true → GroupRun s := by
  intro n
  induction n with
  | zero =>
    intro s hl h
    have : s = [] := List.length_eq_zero.mp (Nat.le_zero.mp hl)
    exact absurd this (isSuffixRun_ne_nil h)
  | succ n ih =>
    intro s hl h
    rcases isSuffixRun_parts h with ⟨hh, hall, z, hz, hzd⟩
    have hsplit : s.takeWhile (fun c => c == '_') ++ s.dropWhile (fun c => c == '_') = s :=
      List.takeWhile_append_dropWhile ..
    have hu_ne : s.takeWhile (fun c => c == '_') ≠ [] := by
      rcases s with _ | ⟨c, t0⟩
      · exact absurd hh (by simp)
      · rw [List.head?_cons] at hh
        have hc : c = '_' := Option.some_injective _ hh
        rw [List.takeWhile_cons_of_pos (by simp [hc])]
        simp
    have hu_all : ∀ c ∈ s.takeWhile (fun c => c == '_'), c = '_' := by
      intro c hc
      simpa using List.mem_takeWhile_imp hc
    have hr_ne : s.dropWhile (fun c => c == '_') ≠ [] := by
      intro he
      have hs_eq : s = s.takeWhile (fun c => c == '_') := by
        conv_lhs => rw [← hsplit]
        rw [he, List.append_nil]
      have hzmem : z ∈ s := List.mem_of_mem_getLast? hz
      have : z = '_' := hu_all z (hs_eq ▸ hzmem)
      rw [this] at hzd
      exact absurd hzd (by decide)
    rcases List.exists_cons_of_ne_nil hr_ne with ⟨c0, r0, hr_eq⟩
    have hc0_digit : c0.isDigit = true := by
      have hc0_ne : (c0 == '_') = false := dropWhile_head_false _ s c0 r0 hr_eq
      have hc0_mem : c0 ∈ s :=
        (List.dropWhile_sublist (l := s) (p := fun c => c == '_')).subset
          (hr_eq ▸ List.mem_cons_self c0 r0)
      rcases hall c0 hc0_mem with h3 | h3
      · rw [h3] at hc0_ne; exact absurd hc0_ne (by simp)
      · exact h3
    have hdsplit :
        (s.dropWhile (fun c => c == '_')).takeWhile Char.isDigit ++
          (s.dropWhile (fun c => c == '_')).dropWhile Char.isDigit
          = s.dropWhile (fun c => c == '_') :=
      List.takeWhile_append_dropWhile ..
    have hd_ne : (s.dropWhile (fun c => c == '_')).takeWhile Char.isDigit ≠ [] := by
      rw [hr_eq, List.takeWhile_cons_of_pos hc0_digit]
      simp
    have hd_all : ∀ c ∈ (s.dropWhile (fun c => c == '_')).takeWhile Char.isDigit,
        c.isDigit = true := by
      intro c hc
      exact List.mem_takeWhile_imp hc
    rcases ht_cases : (s.dropWhile (fun c => c == '_')).dropWhile Char.isDigit
      with _ | ⟨c1, t1⟩
    · have hs_ud : s = s.takeWhile (fun c => c == '_') ++
          (s.dropWhile (fun c => c == '_')).takeWhile Char.isDigit := by
        conv_lhs => rw [← hsplit, ← hdsplit, ht_cases]
        rw [List.append_nil]
      rw [hs_ud]
      exact GroupRun.last _ _ hu_ne hd_ne hu_all hd_all
    · have hs_udt : s = s.takeWhile (fun c => c == '_') ++
          ((s.dropWhile (fun c => c == '_')).takeWhile Char.isDigit ++
            (c1 :: t1)) := by
        conv_lhs => rw [← hsplit, ← hdsplit, ht_cases]
      have ht_sub : ∀ c ∈ c1 :: t1, c ∈ s := by
        intro c hc
        rw [hs_udt]
        exact List.mem_append.mpr (Or.inr (List.mem_append.mpr (Or.inr hc)))
      have hc1 : c1 = '_' := by
        have hc1_nd : c1.isDigit = false := dropWhile_head_false _ _ c1 t1 ht_cases
        rcases hall c1 (ht_sub c1 (List.mem_cons_self c1 t1)) with h3 | h3
        · exact h3
        · rw [h3] at hc1_nd; exact absurd hc1_nd (by simp)
      have hgl_t : (c1 :: t1).getLast? = some z := by
        have := hz
        rw [hs_udt] at this
        rw [List.getLast?_append_of_ne_nil _ (by simp),
          List.getLast?_append_of_ne_nil _ (by simp)] at this
        exact this
      have hrun_t : isSuffixRun (c1 :: t1) = true := by
        apply isSuffixRun_intro
        · rw [List.head?_cons]; exact congrArg some hc1
        · intro c hc; exact hall c (ht_sub c hc)
        · rw [lastDigit_eq _ z hgl_t]; exact hzd
      have hlen_t : (c1 :: t1).length ≤ n := by
        have hslen := congrArg List.length hs_udt
        rw [List.length_append, List.length_append] at hslen
        have h1 : 0 < (s.takeWhile (fun c => c == '_')).length :=
          List.length_pos.mpr hu_ne
        omega
      exact hs_udt ▸ GroupRun.cons _ _ _ hu_ne hd_ne hu_all hd_all
        (ih _ hlen_t hrun_t)

/-- The executable run test decides exactly the group grammar
`(_+[0-9]+)+` of the source regex. -/
theorem groupRun_iff (s : List Char) : GroupRun s ↔ isSuffixRun s = true :=
  ⟨groupRun_to_isSuffixRun, isSuffixRun_to_groupRun_aux s.length s (le_refl _)⟩

/-! ### Registry invariants along a pass run -/

theorem inv_nil : Inv [] [] := by
  refine ⟨?_, ?_, ?_⟩
  · intro n v h; exact absurd h (by simp [rget])
  · intro n h; exact absurd h (by simp [rget])
  · intro n v h; exact absurd h (by simp [rget])

theorem findCleanName_strippable (cfg : Cfg) (reg : Registry) (o r : String)
    (h : findCleanName cfg reg o = some r) :
    ∃ p, findRunStart o.toList 0 = some p := by
  rcases (findCleanName_props cfg reg o r h).2.2 with ⟨c, hs, -⟩
  rcases stripSuffix_shape cfg o c hs with ⟨p, hp, -, -, -⟩
  exact ⟨p, hp⟩

theorem inv_step (cfg : Cfg) (pre : List String) (reg : Registry) (o : String)
    (hInv : Inv pre reg) (hfresh : o ∉ pre) :
    Inv (pre ++ [o]) (makeCleanName cfg reg o).2 := by
  have hself : ∀ v, rget reg o = some v → v = o := by
    intro v hv
    by_contra hne
    exact hfresh (hInv.changedDecl o v hv hne)
  unfold makeCleanName
  rcases hf : findCleanName cfg reg o with _ | f
  · refine ⟨?_, ?_, ?_⟩
    · intro n v h
      rw [rget_rset] at h
      by_cases ho : o = n
      · have hv : v = o := (Option.some_injective _ (by rw [if_pos ho] at h; exact h)).symm
        rw [hv, rget_rset, if_pos rfl]; rfl
      · rw [if_neg ho] at h
        exact rget_rset_isSome _ _ _ _ (hInv.valKey n v h)
    · intro n hn hno
      rw [rget_rset] at hn
      by_cases ho : o = n
      · exact ⟨o, by rw [rget_rset, if_pos rfl, ho]⟩
      · rw [if_neg ho] at hn
        rcases hInv.norunVal n hn hno with ⟨k, hk⟩
        have hko : ¬(o = k) := by
          intro he
          exact ho ((hself n (he ▸ hk)) ▸ rfl)
        exact ⟨k, by rw [rget_rset, if_neg hko]; exact hk⟩
    · intro n v h hne
      rw [rget_rset] at h
      by_cases ho : o = n
      · rw [if_pos ho] at h
        have hv : v = o := (Option.some_injective _ h).symm
        exact absurd (hv.trans ho) hne
      · rw [if_neg ho] at h
        exact List.mem_append.mpr (Or.inl (hInv.changedDecl n v h hne))
  · have hfree : rget reg f = none := findCleanName_free cfg reg o f hf
    have hlook : ∀ n, rget (rset (rset reg f f) o f) n
        = if o = n then some f else if f = n then some f else rget reg n := by
      intro n
      rw [rget_rset, rget_rset]
    refine ⟨?_, ?_, ?_⟩
    · intro n v h
      rw [hlook] at h
      have hfsome : (rget (rset (rset reg f f) o f) f).isSome := by
        rw [hlook]
        by_cases ho : o = f
        · rw [if_pos ho]; rfl
        · rw [if_neg ho, if_pos rfl]; rfl
      by_cases ho : o = n
      · rw [if_pos ho] at h
        rw [← (Option.some_injective _ h)]; exact hfsome
      · rw [if_neg ho] at h
        by_cases hfn : f = n
        · rw [if_pos hfn] at h
          rw [← (Option.some_injective _ h)]; exact hfsome
        · rw [if_neg hfn] at h
          have := hInv.valKey n v h
          rw [hlook]
          by_cases h1 : o = v
          · rw [if_pos h1]; rfl
          · rw [if_neg h1]
            by_cases h2 : f = v
            · rw [if_pos h2]; rfl
            · rw [if_neg h2]; exact this
    · intro n hn hno
      rw [hlook] at hn
      by_cases ho : o = n
      · exfalso
        rcases findCleanName_strippable cfg reg o f hf with ⟨p, hp⟩
        rw [ho, hno] at hp
        exact absurd hp (by simp)
      · rw [if_neg ho] at hn
        by_cases hfn : f = n
        · exact ⟨o, by rw [hlook, if_pos rfl, hfn]⟩
        · rw [if_neg hfn] at hn
          rcases hInv.norunVal n hn hno with ⟨k, hk⟩
          have hko : ¬(o = k) := by
            intro he
            exact ho ((hself n (he ▸ hk)) ▸ rfl)
          have hkf : ¬(f = k) := by
            intro he
            rw [← he, hfree] at hk
            exact absurd hk (by simp)
          exact ⟨k, by rw [hlook, if_neg hko, if_neg hkf]; exact hk⟩
    · intro n v h hne
      rw [hlook] at h
      by_cases ho : o = n
      · exact List.mem_append.mpr (Or.inr (by rw [← ho]; exact List.mem_singleton_self o))
      · rw [if_neg ho] at h
        by_cases hfn : f = n
        · rw [if_pos hfn] at h
          have hv : v = f := (Option.some_injective _ h).symm
          exact absurd (hv.trans hfn) hne
        · rw [if_neg hfn] at h
          exact List.mem_append.mpr (Or.inl (hInv.changedDecl n v h hne))

theorem declVisitNames_inv (cfg : Cfg) :
    ∀ (ns pre : List String) (reg : Registry), Inv pre reg →
      (pre ++ ns).Nodup → Inv (pre ++ ns) (declVisitNames cfg reg ns).2 := by
  intro ns
  induction ns with
  | nil => intro pre reg hInv hnd; simpa using hInv
  | cons o rest ih =>
    intro pre reg hInv hnd
    rw [declVisitNames]
    have hfresh : o ∉ pre := by
      intro hmem
      rcases List.nodup_append.mp hnd with ⟨-, -, hdisj⟩
      exact hdisj hmem (List.mem_cons_self o rest)
    have hstep := inv_step cfg pre reg o hInv hfresh
    have hnd2 : ((pre ++ [o]) ++ rest).Nodup := by
      rw [List.append_assoc, List.singleton_append]; exact hnd
    have := ih (pre ++ [o]) (makeCleanName cfg reg o).2 hstep hnd2
    rw [List.append_assoc, List.singleton_append] at this
    exact this

theorem runDecls_inv (cfg : Cfg) (ns : List String) (h : ns.Nodup) :
    Inv ns (runDecls cfg ns) := by
  have := declVisitNames_inv cfg ns [] [] inv_nil (by simpa using h)
  simpa [runDecls] using this

/-! ### Further resolver and visit lemmas -/

theorem findCleanName_of_strip_none (cfg : Cfg) (reg : Registry) (n : String)
    (h : stripSuffix cfg n = none) : findCleanName cfg reg n = none := by
  unfold findCleanName
  rw [h]

theorem makeCleanName_fst (cfg : Cfg) (reg : Registry) (n : String) :
    (makeCleanName cfg reg n).1 = findCleanName cfg reg n := by
  unfold makeCleanName
  rcases findCleanName cfg reg n with _ | f <;> rfl

theorem makeCleanName_final_key (cfg : Cfg) (reg : Registry) (o : String) :
    (rget (makeCleanName cfg reg o).2 ((makeCleanName cfg reg o).1.getD o)).isSome := by
  unfold makeCleanName
  rcases hf : findCleanName cfg reg o with _ | f
  · simp only [Option.getD_none]
    rw [rget_rset, if_pos rfl]; rfl
  · simp only [Option.getD_some]
    rw [rget_rset, rget_rset]
    by_cases ho : o = f
    · rw [if_pos ho]; rfl
    · rw [if_neg ho, if_pos rfl]; rfl

theorem declVisitNames_cons (cfg : Cfg) (reg : Registry) (o : String)
    (rest : List String) :
    declVisitNames cfg reg (o :: rest)
      = ((match (makeCleanName cfg reg o).1 with | some f => f | none => o) ::
          (declVisitNames cfg (makeCleanName cfg reg o).2 rest).1,
        (declVisitNames cfg (makeCleanName cfg reg o).2 rest).2) := by
  rw [declVisitNames]

theorem declVisitNames_key_of_mem (cfg : Cfg) :
    ∀ (ds : List String) (reg : Registry) (n : String), n ∈ ds →
      (rget (declVisitNames cfg reg ds).2 n).isSome := by
  intro ds
  induction ds with
  | nil => intro reg n h; exact absurd h (by simp)
  | cons o rest ih =>
    intro reg n h
    rw [declVisitNames_cons]
    rcases List.mem_cons.mp h with rfl | hm
    · apply declVisitNames_mono
      have := makeCleanName_self cfg reg n
      rw [this]; rfl
    · exact ih _ n hm

theorem declVisitNames_append (cfg : Cfg) :
    ∀ (xs ys : List String) (reg : Registry),
      (declVisitNames cfg reg (xs ++ ys)).2
        = (declVisitNames cfg (declVisitNames cfg reg xs).2 ys).2 := by
  intro xs
  induction xs with
  | nil => intro ys reg; rfl
  | cons o rest ih =>
    intro ys reg
    rw [List.cons_append, declVisitNames_cons, declVisitNames_cons]
    exact ih ys _

/-- A name that is already a registry key and differs from every name still to
be declared is never produced as an output of the remaining declaration
visits: renamed outputs are fresh with respect to the registry, unchanged
outputs are the declared names themselves. -/
theorem declVisitNames_fresh (cfg : Cfg) :
    ∀ (ns : List String) (reg : Registry) (f : String),
      (rget reg f).isSome →
      (∀ j nj, ns.get? j = some nj → f ≠ nj) →
      f ∉ (declVisitNames cfg reg ns).1 := by
  intro ns
  induction ns with
  | nil => intro reg f _ _ h; exact absurd h (by simp [declVisitNames])
  | cons o rest ih =>
    intro reg f hkey hne
    rw [declVisitNames_cons]
    intro hmem
    rcases List.mem_cons.mp hmem with heq | hm
    · rcases hg : (makeCleanName cfg reg o).1 with _ | g
      · rw [hg] at heq
        exact hne 0 o (by rw [List.get?_cons_zero]) heq
      · rw [hg] at heq
        rw [makeCleanName_fst] at hg
        have hfree := findCleanName_free cfg reg o g hg
        rw [heq, hfree] at hkey
        exact absurd hkey (by simp)
    · exact ih _ f (makeCleanName_mono cfg reg o f hkey)
        (fun j nj hj => hne (j + 1) nj (by rw [List.get?_cons_succ]; exact hj)) hm

/-- Core of the uniqueness analysis: if no output of the visit sequence
coincides with a declared name appearing strictly later, the outputs are
pairwise distinct. -/
theorem declVisitNames_nodup (cfg : Cfg) :
    ∀ (ns : List String) (reg : Registry),
      (∀ i j fi, ((declVisitNames cfg reg ns).1).get? i = some fi →
        ns.get? j = some fi → i < j → False) →
      ((declVisitNames cfg reg ns).1).Nodup := by
  intro ns
  induction ns with
  | nil => intro reg _; simp [declVisitNames]
  | cons o rest ih =>
    intro reg h2
    rw [declVisitNames_cons]
    rw [List.nodup_cons]
    constructor
    · apply declVisitNames_fresh
      · rcases hg : (makeCleanName cfg reg o).1 with _ | g
        · simp only [hg]
          have hs := makeCleanName_self cfg reg o
          rw [hg] at hs
          simp only [Option.getD_none] at hs
          rw [hs]; rfl
        · simp only [hg]
          have hs := makeCleanName_final_key cfg reg o
          rw [hg] at hs
          simp only [Option.getD_some] at hs
          exact hs
      · intro j nj hj heq
        refine h2 0 (j + 1) nj ?_ ?_ (by omega)
        · rw [declVisitNames_cons, List.get?_cons_zero, heq]
        · rw [List.get?_cons_succ]; exact hj
    · apply ih
      intro i j fi hi hj hij
      refine h2 (i + 1) (j + 1) fi ?_ ?_ (by omega)
      · rw [declVisitNames_cons, List.get?_cons_succ]; exact hi
      · rw [List.get?_cons_succ]; exact hj

/-- After a declaration visit sequence with pairwise distinct names, the
output names are exactly the registry images of the inputs. -/
theorem declVisitNames_final (cfg : Cfg) :
    ∀ (ds : List String) (reg : Registry), ds.Nodup →
      (declVisitNames cfg reg ds).1
        = ds.map (finalOf (declVisitNames cfg reg ds).2) := by
  intro ds
  induction ds with
  | nil => intro reg _; rfl
  | cons o rest ih =>
    intro reg hnd
    rw [declVisitNames_cons, List.map_cons]
    rcases List.nodup_cons.mp hnd with ⟨ho, hrest⟩
    have hkey := makeCleanName_self cfg reg o
    have hfrozen := declVisitNames_frozen cfg rest (makeCleanName cfg reg o).2 o
      ((makeCleanName cfg reg o).1.getD o) ho hkey
    have hhead : (match (makeCleanName cfg reg o).1 with | some f => f | none => o)
        = finalOf (declVisitNames cfg (makeCleanName cfg reg o).2 rest).2 o := by
      rw [finalOf, hfrozen]
      rcases (makeCleanName cfg reg o).1 with _ | g <;> rfl
    rw [hhead, ih _ hrest]

/-! ### The pass as a whole -/

theorem runPass_cons_decl (cfg : Cfg) (reg : Registry) (ds : List String)
    (rest : List Node) :
    runPass cfg reg (Node.decl ds :: rest)
      = (Node.decl (declVisitNames cfg reg ds).1 ::
          (runPass cfg (declVisitNames cfg reg ds).2 rest).1,
        (runPass cfg (declVisitNames cfg reg ds).2 rest).2) := by
  rw [runPass]

theorem runPass_cons_ref (cfg : Cfg) (reg : Registry) (n : String)
    (rest : List Node) :
    runPass cfg reg (Node.ref n :: rest)
      = (Node.ref (refVisit reg n) :: (runPass cfg reg rest).1,
        (runPass cfg reg rest).2) := by
  rw [runPass]

theorem refVisit_eq_of_entry (reg : Registry) (n v : String)
    (h : rget reg n = some v) : refVisit reg n = v := by
  by_cases hvn : v = n
  · simp [refVisit, getCleanName, h, hvn]
  · simp [refVisit, getCleanName, h, hvn]

/-- Main correctness statement of one traversal: when declared names are
pairwise distinct and every reference is either declared earlier in the
traversal or already has a frozen registry entry and is not declared at all,
the output equals the input rewritten pointwise through the final registry. -/
theorem runPass_spec (cfg : Cfg) :
    ∀ (nodes : List Node) (reg : Registry),
      (declaredNames nodes).Nodup →
      (∀ t n, nodes.get? t = some (Node.ref n) →
        (∃ s ds, s < t ∧ nodes.get? s = some (Node.decl ds) ∧ n ∈ ds) ∨
        ((rget reg n).isSome ∧ n ∉ declaredNames nodes)) →
      (runPass cfg reg nodes).1
        = nodes.map (renameNode (finalOf (runPass cfg reg nodes).2)) := by
  intro nodes
  induction nodes with
  | nil => intro reg _ _; rfl
  | cons hd rest ih =>
    intro reg hnd href
    cases hd with
    | decl ds =>
      rw [runPass_cons_decl, List.map_cons]
      rw [declaredNames] at hnd
      rcases List.nodup_append.mp hnd with ⟨hds, hrest, hdisj⟩
      have htail : (runPass cfg (declVisitNames cfg reg ds).2 rest).1
          = rest.map (renameNode
              (finalOf (runPass cfg (declVisitNames cfg reg ds).2 rest).2)) := by
        apply ih _ hrest
        intro t n ht
        rcases href (t + 1) n (by rw [List.get?_cons_succ]; exact ht) with
          ⟨s, ds2, hs, hsget, hmem⟩ | ⟨hkey, hnotin⟩
        · cases s with
          | zero =>
            rw [List.get?_cons_zero] at hsget
            have hds2 : ds = ds2 := by
              have := Option.some_injective _ hsget
              injection this
            right
            refine ⟨declVisitNames_key_of_mem cfg ds reg n (hds2 ▸ hmem), ?_⟩
            exact fun hm => hdisj (hds2 ▸ hmem) hm
          | succ s =>
            rw [List.get?_cons_succ] at hsget
            exact Or.inl ⟨s, ds2, by omega, hsget, hmem⟩
        · right
          refine ⟨declVisitNames_mono cfg ds reg n hkey, ?_⟩
          intro hm
          exact hnotin (by rw [declaredNames]; exact List.mem_append.mpr (Or.inr hm))
      have hhead : (declVisitNames cfg reg ds).1
          = ds.map (finalOf (runPass cfg (declVisitNames cfg reg ds).2 rest).2) := by
        rw [declVisitNames_final cfg ds reg hds]
        apply List.map_eq_map_iff.mpr
        intro o ho
        have hkey := declVisitNames_key_of_mem cfg ds reg o ho
        rcases hv : rget (declVisitNames cfg reg ds).2 o with _ | v
        · rw [hv] at hkey; exact absurd hkey (by simp)
        · have hfr := runPass_frozen cfg rest (declVisitNames cfg reg ds).2 o v
            (fun hm => hdisj ho hm) hv
          rw [finalOf, finalOf, hv, hfr]
      rw [renameNode, htail, hhead]
    | ref n =>
      rw [runPass_cons_ref, List.map_cons]
      rcases href 0 n (by rw [List.get?_cons_zero]) with ⟨s, ds2, hs, -, -⟩ | ⟨hkey, hnotin⟩
      · omega
      · rcases hv : rget reg n with _ | v
        · rw [hv] at hkey; exact absurd hkey (by simp)
        · have hnr : n ∉ declaredNames rest := fun hm =>
            hnotin (by rw [declaredNames]; exact hm)
          have hfr := runPass_frozen cfg rest reg n v hnr hv
          have hhead : refVisit reg n = finalOf (runPass cfg reg rest).2 n := by
            rw [refVisit_eq_of_entry reg n v hv, finalOf, hfr]
            rfl
          have htail : (runPass cfg reg rest).1
              = rest.map (renameNode (finalOf (runPass cfg reg rest).2)) := by
            apply ih reg (by rw [declaredNames] at hnd; exact hnd)
            intro t n2 ht
            rcases href (t + 1) n2 (by rw [List.get?_cons_succ]; exact ht) with
              ⟨s, ds2, hs, hsget, hmem⟩ | ⟨hkey2, hnotin2⟩
            · cases s with
              | zero =>
                rw [List.get?_cons_zero] at hsget
                exact absurd (Option.some_injective _ hsget) (by simp)
              | succ s =>
                rw [List.get?_cons_succ] at hsget
                exact Or.inl ⟨s, ds2, by omega, hsget, hmem⟩
            · right
              refine ⟨hkey2, ?_⟩
              intro hm
              exact hnotin2 (by rw [declaredNames]; exact hm)
          rw [renameNode, htail, hhead]

/-! ### Unstrippable names survive any run unchanged -/

theorem declVisitNames_unstrippable (cfg : Cfg) :
    ∀ (ds : List String) (reg : Registry) (k : Nat) (n : String),
      ds.get? k = some n → stripSuffix cfg n = none →
      ((declVisitNames cfg reg ds).1).get? k = some n := by
  intro ds
  induction ds with
  | nil => intro reg k n h _; exact absurd h (by simp)
  | cons o rest ih =>
    intro reg k n hk hstrip
    rw [declVisitNames_cons]
    cases k with
    | zero =>
      rw [List.get?_cons_zero] at hk
      have ho : o = n := Option.some_injective _ hk
      subst ho
      rw [List.get?_cons_zero]
      have hm : (makeCleanName cfg reg o).1 = none := by
        rw [makeCleanName_fst]
        exact findCleanName_of_strip_none cfg reg o hstrip
      simp only [hm]
    | succ k =>
      rw [List.get?_cons_succ] at hk
      rw [List.get?_cons_succ]
      exact ih _ k n hk hstrip

theorem runPass_unstrippable (cfg : Cfg) :
    ∀ (nodes : List Node) (reg : Registry) (s : Nat) (ds : List String)
      (k : Nat) (n : String),
      nodes.get? s = some (Node.decl ds) → ds.get? k = some n →
      stripSuffix cfg n = none →
      ∃ ds2, ((runPass cfg reg nodes).1).get? s = some (Node.decl ds2) ∧
        ds2.get? k = some n := by
  intro nodes
  induction nodes with
  | nil => intro reg s ds k n h _ _; exact absurd h (by simp)
  | cons hd rest ih =>
    intro reg s ds k n hs hk hstrip
    cases hd with
    | decl ds1 =>
      rw [runPass_cons_decl]
      cases s with
      | zero =>
        rw [List.get?_cons_zero] at hs
        have hds : ds1 = ds := by
          have := Option.some_injective _ hs
          injection this
        subst hds
        exact ⟨(declVisitNames cfg reg ds1).1, by rw [List.get?_cons_zero],
          declVisitNames_unstrippable cfg ds1 reg k n hk hstrip⟩
      | succ s =>
        rw [List.get?_cons_succ] at hs
        rcases ih _ s ds k n hs hk hstrip with ⟨ds2, h1, h2⟩
        exact ⟨ds2, by rw [List.get?_cons_succ]; exact h1, h2⟩
    | ref m =>
      rw [runPass_cons_ref]
      cases s with
      | zero =>
        rw [List.get?_cons_zero] at hs
        exact absurd (Option.some_injective _ hs) (by simp)
      | succ s =>
        rw [List.get?_cons_succ] at hs
        rcases ih _ s ds k n hs hk hstrip with ⟨ds2, h1, h2⟩
        exact ⟨ds2, by rw [List.get?_cons_succ]; exact h1, h2⟩

/-! ### Claim C1 -/

/-- C1 counterexample: the distinct originals `ab_1` and `ab`, each declared
at exactly one site and in this order, are both assigned the final name `ab`:
the first strips to `ab` and takes it, and the second, having no strippable
suffix, is left unchanged without any collision check against already
assigned final names. -/
theorem C1_counterexample :
    ("ab_1" : String) ≠ "ab" ∧
      (declVisitNames cfgNoBl [] ["ab_1", "ab"]).1 = ["ab", "ab"] := by
  constructor
  · decide
  · decide

/-- C1 (amended): in a single pass run in which each declared name occurs at
exactly one declaration site, and in which additionally no declared name
coincides with the final name already assigned to an earlier declaration, any
two declarations whose original names are distinct are assigned distinct
final names, and the names written back into the IR are exactly the
registry images of the originals. -/
theorem C1_uniqueness (cfg : Cfg) (ns : List String) (hnd : ns.Nodup)
    (hsep : ∀ i j fi, ((declVisitNames cfg [] ns).1).get? i = some fi →
      ns.get? j = some fi → i < j → False) :
    ((declVisitNames cfg [] ns).1).Nodup ∧
      (declVisitNames cfg [] ns).1
        = ns.map (finalOf (declVisitNames cfg [] ns).2) :=
  ⟨declVisitNames_nodup cfg ns [] hsep, declVisitNames_final cfg ns [] hnd⟩

theorem C1_witness :
    ((declVisitNames cfgNoBl [] ["a", "b_1"]).1).Nodup ∧
      (declVisitNames cfgNoBl [] ["a", "b_1"]).1
        = ["a", "b_1"].map (finalOf (declVisitNames cfgNoBl [] ["a", "b_1"]).2) := by
  apply C1_uniqueness cfgNoBl ["a", "b_1"] (by decide)
  intro i j fi hi hj hij
  cases j with
  | zero => omega
  | succ j =>
    cases j with
    | zero =>
      have hfi : fi = "b_1" := by
        rw [List.get?_cons_succ, List.get?_cons_zero] at hj
        exact (Option.some_injective _ hj).symm
      have hi0 : i = 0 := by omega
      subst hi0
      subst hfi
      exact absurd hi (by decide)
    | succ j =>
      rw [List.get?_cons_succ, List.get?_cons_succ, List.get?_nil] at hj
      exact absurd hj (by simp)

/-! ### Claim C3 -/

/-- C3 counterexample: with blacklist `["x"]`, the declared name `x` has no
strippable suffix, so it is left unchanged and becomes its own final name,
which is a member of the supplied blacklist; the pass checks neither the
dialect nor the blacklist for a name it leaves unchanged. -/
theorem C3_counterexample :
    (declVisitNames cfgBlX [] ["x"]).1 = ["x"] ∧
      cfgBlX.blacklist.contains "x" = true := by
  constructor
  · decide
  · decide

/-- C3 (amended): a renamed final name (one actually produced by the
resolver) is never a registry key and never a member of the blacklist, and
when it is the bare stripped candidate it is additionally not a dialect
builtin.  Names left unchanged undergo no such checks and may be builtins or
blacklist members; numbered fallback names are not checked against the
dialect. -/
theorem C3_no_reserved (cfg : Cfg) (reg : Registry) (n r : String)
    (h : findCleanName cfg reg n = some r) :
    rget reg r = none ∧ cfg.blacklist.contains r = false ∧
      (stripSuffix cfg n = some r → cfg.dialect.builtin r = false) := by
  rcases findCleanName_props cfg reg n r h with ⟨h1, h2, c, hs, hcase⟩
  refine ⟨h1, h2, ?_⟩
  intro hsr
  rw [hs] at hsr
  have hcr : c = r := Option.some_injective _ hsr
  rcases hcase with ⟨-, hb⟩ | ⟨j, -, hr⟩
  · rw [← hcr]; exact hb
  · exfalso
    rw [hcr] at hr
    exact fallbackName_ne_base r j hr.symm

theorem C3_witness :
    rget [] "a" = none ∧ cfgNoBl.blacklist.contains "a" = false ∧
      cfgNoBl.dialect.builtin "a" = false := by
  have h := C3_no_reserved cfgNoBl [] "a_1" "a" (by decide)
  exact ⟨h.1, h.2.1, h.2.2 (by decide)⟩

/-! ### Claim C4 -/

/-- C4 counterexample: on the declarations `b_1, b_1_2` one pass produces
`b, b_2` (the fallback `b_1` is blocked because the renamed original `b_1` is
still a registry key), but a second, freshly constructed pass on that output
produces `b, b_1` (the blocking key is gone), so two pass runs differ from
one. -/
theorem C4_counterexample :
    (runPass cfgNoBl []
        ((runPass cfgNoBl [] [Node.decl ["b_1"], Node.decl ["b_1_2"]]).1)).1
      ≠ (runPass cfgNoBl [] [Node.decl ["b_1"], Node.decl ["b_1_2"]]).1 := by
  decide

/-- C4 (amended): a second, freshly constructed pass run on the output of a
first run leaves unchanged every declared name whose first-run output has no
strippable suffix; output names that kept a numeric suffix (and references
to them) may be renamed again, so the composition of two runs does not in
general equal one run. -/
theorem C4_second_run_preserves (cfg : Cfg) (nodes : List Node) (s k : Nat)
    (ds : List String) (n : String)
    (hs : ((runPass cfg [] nodes).1).get? s = some (Node.decl ds))
    (hk : ds.get? k = some n) (hstrip : stripSuffix cfg n = none) :
    ∃ ds2, ((runPass cfg [] (runPass cfg [] nodes).1).1).get? s
        = some (Node.decl ds2) ∧ ds2.get? k = some n :=
  runPass_unstrippable cfg (runPass cfg [] nodes).1 [] s ds k n hs hk hstrip

theorem C4_witness :
    ∃ ds2, ((runPass cfgNoBl []
        (runPass cfgNoBl [] [Node.decl ["a"]]).1).1).get? 0
        = some (Node.decl ds2) ∧ ds2.get? 0 = some "a" :=
  C4_second_run_preserves cfgNoBl [Node.decl ["a"]] 0 0 ["a"] "a"
    (by decide) (by decide) (by decide)

/-! ### Claim C9 -/

/-- C9 counterexample: with the declarations `ab, ab_1_2, ab_1` (each name
declared exactly once), after the second declaration the registry maps
`ab_1 ↦ ab_1` (self-booking of the fallback final name of `ab_1_2`), and
processing the third declaration overwrites that entry to `ab_1 ↦ ab_2`. -/
theorem C9_counterexample :
    (["ab", "ab_1_2", "ab_1"] : List String).Nodup ∧
      rget (declVisitNames cfgNoBl [] ["ab", "ab_1_2"]).2 "ab_1" = some "ab_1" ∧
      rget (declVisitNames cfgNoBl
          (declVisitNames cfgNoBl [] ["ab", "ab_1_2"]).2 ["ab_1"]).2 "ab_1"
        = some "ab_2" := by
  refine ⟨by decide, by decide, by decide⟩

/-- C9 (amended): in a run in which each name is declared at most once, the
registry entry of a declared name is frozen from its own declaration visit
onwards — later operations never delete it or change its value.  (An entry
that merely self-books a final name can still be overwritten at the moment
that name is itself declared, as the counterexample shows.) -/
theorem C9_registry_monotone (cfg : Cfg) (l1 l2 : List String) (o : String)
    (hnd : (l1 ++ o :: l2).Nodup) :
    (rget (declVisitNames cfg [] (l1 ++ [o])).2 o).isSome ∧
      rget (declVisitNames cfg [] (l1 ++ o :: l2)).2 o
        = rget (declVisitNames cfg [] (l1 ++ [o])).2 o := by
  have hkey : (rget (declVisitNames cfg [] (l1 ++ [o])).2 o).isSome :=
    declVisitNames_key_of_mem cfg (l1 ++ [o]) [] o (by simp)
  refine ⟨hkey, ?_⟩
  have hsplit : l1 ++ o :: l2 = (l1 ++ [o]) ++ l2 := by simp
  rw [hsplit, declVisitNames_append cfg (l1 ++ [o]) l2 []]
  have ho2 : o ∉ l2 := by
    rcases List.nodup_append.mp hnd with ⟨-, h2, -⟩
    exact (List.nodup_cons.mp h2).1
  rcases hv : rget (declVisitNames cfg [] (l1 ++ [o])).2 o with _ | v
  · rw [hv] at hkey; exact absurd hkey (by simp)
  · exact declVisitNames_frozen cfg l2 _ o v ho2 hv

theorem C9_witness :
    (rget (declVisitNames cfgNoBl [] (["q"] ++ ["w"])).2 "w").isSome ∧
      rget (declVisitNames cfgNoBl [] (["q"] ++ "w" :: ["e"])).2 "w"
        = rget (declVisitNames cfgNoBl [] (["q"] ++ ["w"])).2 "w" :=
  C9_registry_monotone cfgNoBl ["q"] ["e"] "w" (by decide)

/-! ### Claim C2 -/

/-- C2: when every declared name is unique and every reference site bears the
name of a declaration visited strictly earlier in the traversal, the pass
output equals the input rewritten pointwise through the final registry: in
particular every reference site ends up bearing exactly the final name the
pass assigned to the declaration of the same original name. -/
theorem C2_reference_consistency (cfg : Cfg) (nodes : List Node)
    (hnd : (declaredNames nodes).Nodup)
    (href : ∀ t n, nodes.get? t = some (Node.ref n) →
      ∃ s ds, s < t ∧ nodes.get? s = some (Node.decl ds) ∧ n ∈ ds) :
    (runPass cfg [] nodes).1
      = nodes.map (renameNode (finalOf (runPass cfg [] nodes).2)) :=
  runPass_spec cfg nodes [] hnd (fun t n ht => Or.inl (href t n ht))

theorem C2_witness :
    (runPass cfgNoBl [] [Node.decl ["v_1"], Node.ref "v_1"]).1
      = [Node.decl ["v_1"], Node.ref "v_1"].map
          (renameNode (finalOf
            (runPass cfgNoBl [] [Node.decl ["v_1"], Node.ref "v_1"]).2)) := by
  apply C2_reference_consistency cfgNoBl _ (by decide)
  intro t n ht
  cases t with
  | zero =>
    rw [List.get?_cons_zero] at ht
    exact Node.noConfusion (Option.some_injective _ ht)
  | succ t =>
    cases t with
    | zero =>
      rw [List.get?_cons_succ, List.get?_cons_zero] at ht
      have hn : n = "v_1" := by
        have := Option.some_injective _ ht
        injection this.symm
      refine ⟨0, ["v_1"], by omega, by rw [List.get?_cons_zero], ?_⟩
      rw [hn]
      exact List.mem_singleton_self _
    | succ t =>
      rw [List.get?_cons_succ, List.get?_cons_succ, List.get?_nil] at ht
      exact absurd ht (by simp)

/-! ### Claim C5 -/

theorem findCleanName_eq_of_strip (cfg : Cfg) (reg : Registry) (n c : String)
    (hs : stripSuffix cfg n = some c) :
    findCleanName cfg reg n
      = if (!cfg.dialect.builtin c && (rget reg c).isNone) = true then some c
        else findFreeSuffix reg cfg.blacklist c (fuelFor reg cfg.blacklist) 1 := by
  unfold findCleanName
  rw [hs]

/-- C5: on every registry reachable by a pass run over pairwise distinct
declarations, a stripped candidate `c` is accepted unchanged exactly when it
is not a dialect builtin and not recorded as any declaration's final name;
the source's key-presence test coincides with the final-name test because a
stripped candidate has no trailing suffix-run and hence can never equal a key
recorded only as a renamed (suffixed) original. -/
theorem C5_candidate_acceptance (cfg : Cfg) (ns : List String) (n c : String)
    (hnd : ns.Nodup) (hs : stripSuffix cfg n = some c) :
    findCleanName cfg (runDecls cfg ns) n = some c ↔
      (cfg.dialect.builtin c = false ∧ ¬isFinalName (runDecls cfg ns) c) := by
  have hInv := runDecls_inv cfg ns hnd
  constructor
  · intro h
    rcases findCleanName_props cfg _ n c h with ⟨hfree, -, c2, hs2, hcase⟩
    rw [hs] at hs2
    have hceq : c = c2 := Option.some_injective _ hs2
    subst hceq
    rcases hcase with ⟨-, hb⟩ | ⟨j, -, hr⟩
    · refine ⟨hb, ?_⟩
      rintro ⟨k, hk⟩
      have hsome := hInv.valKey k c hk
      rw [hfree] at hsome
      exact absurd hsome (by simp)
    · exact absurd hr.symm (fallbackName_ne_base c j)
  · rintro ⟨hb, hnf⟩
    have hfree : rget (runDecls cfg ns) c = none := by
      rcases hrc : rget (runDecls cfg ns) c with _ | v
      · rfl
      · exfalso
        have hnorun : findRunStart c.toList 0 = none :=
          stripSuffix_cand_norun cfg n c hs
        exact hnf (hInv.norunVal c (by rw [hrc]; rfl) hnorun)
    rw [findCleanName_eq_of_strip cfg _ n c hs,
      if_pos (by rw [hb, hfree]; rfl)]

theorem C5_witness :
    findCleanName cfgNoBl (runDecls cfgNoBl ["k_1"]) "a_1" = some "a" := by
  refine (C5_candidate_acceptance cfgNoBl ["k_1"] "a_1" "a" (by decide)
    (by decide)).mpr ⟨by decide, ?_⟩
  rintro ⟨k0, hk0⟩
  have hreg : runDecls cfgNoBl ["k_1"] = [("k_1", "k"), ("k", "k")] := by decide
  rw [hreg, rget] at hk0
  by_cases h1 : ("k_1" : String) = k0
  · rw [if_pos h1] at hk0
    exact absurd (Option.some_injective _ hk0) (by decide)
  · rw [if_neg h1, rget] at hk0
    by_cases h2 : ("k" : String) = k0
    · rw [if_pos h2] at hk0
      exact absurd (Option.some_injective _ hk0) (by decide)
    · rw [if_neg h2, rget] at hk0
      exact absurd hk0 (by simp)

/-! ### Claim C6 -/

/-- C6: when the stripped candidate `c` is rejected (builtin or registry
key), the resolver returns `c_i` for the least positive `i` whose fallback
name is neither a registry key nor blacklisted (here with the pigeonhole fuel
bound made explicit), and the dialect is not consulted on fallback names: any
dialect agreeing with the current one on the bare candidate `c` yields the
same result. -/
theorem C6_fallback_least (cfg : Cfg) (reg : Registry) (n c : String) (i0 : Nat)
    (hs : stripSuffix cfg n = some c)
    (hrej : ¬(cfg.dialect.builtin c = false ∧ rget reg c = none))
    (hfree : (rget reg (fallbackName c i0)).isNone = true)
    (hbl : cfg.blacklist.contains (fallbackName c i0) = false)
    (hleast : ∀ m, 1 ≤ m → m < i0 →
      ¬((rget reg (fallbackName c m)).isNone = true ∧
        cfg.blacklist.contains (fallbackName c m) = false))
    (h1 : 1 ≤ i0) (hfuel : i0 ≤ fuelFor reg cfg.blacklist) :
    findCleanName cfg reg n = some (fallbackName c i0) ∧
      ∀ d : Dialect, d.builtin c = cfg.dialect.builtin c →
        findCleanName ⟨d, cfg.blacklist⟩ reg n = findCleanName cfg reg n := by
  have hcond : (!cfg.dialect.builtin c && (rget reg c).isNone) = false := by
    rcases hbu : cfg.dialect.builtin c with _ | _
    · rcases hrc : rget reg c with _ | v
      · exact absurd ⟨hbu, hrc⟩ hrej
      · rfl
    · rfl
  have hffs := findFreeSuffix_finds reg cfg.blacklist c
    (fuelFor reg cfg.blacklist) 1 i0 h1 (by omega) hfree hbl
    (fun m hm1 hm2 => hleast m hm1 hm2)
  constructor
  · rw [findCleanName_eq_of_strip cfg reg n c hs, if_neg (by simp [hcond])]
    exact hffs
  · intro d hd
    have hs2 : stripSuffix ⟨d, cfg.blacklist⟩ n = some c := hs
    rw [findCleanName_eq_of_strip ⟨d, cfg.blacklist⟩ reg n c hs2,
      findCleanName_eq_of_strip cfg reg n c hs]
    show (if (!d.builtin c && (rget reg c).isNone) = true then some c
        else findFreeSuffix reg cfg.blacklist c (fuelFor reg cfg.blacklist) 1)
      = if (!cfg.dialect.builtin c && (rget reg c).isNone) = true then some c
        else findFreeSuffix reg cfg.blacklist c (fuelFor reg cfg.blacklist) 1
    rw [hd]

theorem C6_witness :
    findCleanName cfgBuiltinA [] "a_2" = some (fallbackName "a" 1) ∧
      findCleanName ⟨⟨fun _ => true⟩, cfgBuiltinA.blacklist⟩ [] "a_2"
        = findCleanName cfgBuiltinA [] "a_2" := by
  have h := C6_fallback_least cfgBuiltinA [] "a_2" "a" 1 (by decide)
    (by rintro ⟨h1, -⟩; exact absurd h1 (by decide)) (by decide) (by decide)
    (fun m hm1 hm2 => absurd hm2 (by omega)) (by omega) (by decide)
  exact ⟨h.1, h.2 ⟨fun _ => true⟩ (by decide)⟩

/-! ### Claim C7 -/

/-- C7: `stripSuffix` returns `some c` exactly when the name has a trailing
run of one or more underscore-digit groups, the prefix left after removing
the maximal such run (equivalently, the one starting leftmost) is nonempty,
and that prefix is not blacklisted; `c` is then exactly that prefix.  The
operation reads only the name and the blacklist, never the registry. -/
theorem C7_strip_spec (cfg : Cfg) (n c : String) :
    stripSuffix cfg n = some c ↔
      ∃ p, 0 < p ∧ GroupRun (n.toList.drop p) ∧
        (∀ q, q < p → ¬GroupRun (n.toList.drop q)) ∧
        c = String.mk (n.toList.take p) ∧
        cfg.blacklist.contains c = false := by
  constructor
  · intro h
    rcases stripSuffix_shape cfg n c h with ⟨p, hfr, hp, hc, hbl⟩
    rcases findRunStart_zero_some _ p hfr with ⟨hrun, hmin⟩
    refine ⟨p, hp, (groupRun_iff _).mpr hrun, ?_, hc, hbl⟩
    intro q hq hg
    have := (groupRun_iff _).mp hg
    rw [hmin q hq] at this
    exact absurd this (by simp)
  · rintro ⟨p, hp, hrun, hmin, hc, hbl⟩
    have hrunb := (groupRun_iff _).mp hrun
    have hfr : findRunStart n.toList 0 = some p := by
      rcases hfr2 : findRunStart n.toList 0 with _ | p2
      · have := findRunStart_zero_none _ hfr2 p
        rw [this] at hrunb
        exact absurd hrunb (by simp)
      · rcases findRunStart_zero_some _ p2 hfr2 with ⟨hrun2, hmin2⟩
        have h1 : ¬(p2 < p) := fun hlt =>
          absurd ((groupRun_iff _).mpr hrun2) (hmin p2 hlt)
        have h2 : ¬(p < p2) := fun hlt => by
          rw [hmin2 p hlt] at hrunb
          exact absurd hrunb (by simp)
        have hpe : p = p2 := by omega
        rw [hpe]
    unfold stripSuffix
    rw [hfr]
    show (if 0 < p then
        if cfg.blacklist.contains (String.mk (n.toList.take p)) = true then none
        else some (String.mk (n.toList.take p))
      else none) = some c
    rw [if_pos hp, ← hc, if_neg (by rw [hbl]; simp)]

theorem C7_witness : stripSuffix cfgNoBl "a_1" = some "a" := by
  refine (C7_strip_spec cfgNoBl "a_1" "a").mpr
    ⟨1, by omega, (groupRun_iff _).mpr (by decide), ?_, by decide, by decide⟩
  intro q hq hg
  have hq0 : q = 0 := by omega
  subst hq0
  exact absurd ((groupRun_iff _).mp hg) (by decide)

/-! ### Claim C8 -/

theorem getCleanName_iff (reg : Registry) (n m : String) :
    getCleanName reg n = some m ↔ (rget reg n = some m ∧ m ≠ n) := by
  unfold getCleanName
  rcases hr : rget reg n with _ | v
  · show (none : Option String) = some m ↔ ((none : Option String) = some m ∧ m ≠ n)
    simp
  · by_cases hvn : v = n
    · show (if v = n then none else some v) = some m ↔ (some v = some m ∧ m ≠ n)
      rw [if_pos hvn]
      constructor
      · intro h; exact absurd h (by simp)
      · rintro ⟨h1, h2⟩
        have hv : v = m := Option.some_injective _ h1
        exact absurd (hv.symm.trans hvn) h2
    · show (if v = n then none else some v) = some m ↔ (some v = some m ∧ m ≠ n)
      rw [if_neg hvn]
      constructor
      · intro h
        have hv : v = m := Option.some_injective _ h
        exact ⟨by rw [hv], fun he => hvn (hv.trans he)⟩
      · rintro ⟨h1, -⟩; exact h1

/-- C8: the reference-site lookup returns `some m` exactly when the registry
has the entry `n ↦ m` with `m ≠ n`; otherwise (no entry, or a self-mapping
entry) it returns `none` and the reference is left untouched — in particular
a reference to a name never declared in the traversed subtree passes through
unchanged. -/
theorem C8_reference_lookup (cfg : Cfg) (ns : List String) (n m : String)
    (hnd : ns.Nodup) :
    (getCleanName (runDecls cfg ns) n = some m ↔
      (rget (runDecls cfg ns) n = some m ∧ m ≠ n)) ∧
    (getCleanName (runDecls cfg ns) n = none →
      refVisit (runDecls cfg ns) n = n) ∧
    (n ∉ ns → refVisit (runDecls cfg ns) n = n) := by
  refine ⟨getCleanName_iff _ n m, ?_, ?_⟩
  · intro h
    simp [refVisit, h]
  · intro hn
    have hInv := runDecls_inv cfg ns hnd
    rcases hr : rget (runDecls cfg ns) n with _ | v
    · have hg : getCleanName (runDecls cfg ns) n = none := by
        rcases hgc : getCleanName (runDecls cfg ns) n with _ | m2
        · rfl
        · rcases (getCleanName_iff _ n m2).mp hgc with ⟨h1, -⟩
          rw [hr] at h1
          exact absurd h1 (by simp)
      simp [refVisit, hg]
    · by_cases hvn : v = n
      · have hg : getCleanName (runDecls cfg ns) n = none := by
          rcases hgc : getCleanName (runDecls cfg ns) n with _ | m2
          · rfl
          · rcases (getCleanName_iff _ n m2).mp hgc with ⟨h1, h2⟩
            rw [hr] at h1
            have hv : v = m2 := Option.some_injective _ h1
            exact absurd (hv.symm.trans hvn) h2
        simp [refVisit, hg]
      · exact absurd (hInv.changedDecl n v hr hvn) hn

theorem C8_witness :
    refVisit (runDecls cfgNoBl ["v_1"]) "w" = "w" :=
  (C8_reference_lookup cfgNoBl ["v_1"] "w" "z" (by decide)).2.2 (by decide)

/-! ### Claim C10 -/

/-- C10: on every registry reachable by a pass run over pairwise distinct
declarations, every name occurring as a mapped value (a final name) also
occurs as a key; consequently, since the resolver's availability checks test
key presence, it can never return a name already handed out as some earlier
declaration's final name. -/
theorem C10_values_are_keys (cfg : Cfg) (ns : List String) (hnd : ns.Nodup) :
    (∀ v, isFinalName (runDecls cfg ns) v → (rget (runDecls cfg ns) v).isSome) ∧
      (∀ n r, findCleanName cfg (runDecls cfg ns) n = some r →
        ¬isFinalName (runDecls cfg ns) r) := by
  have hInv := runDecls_inv cfg ns hnd
  constructor
  · rintro v ⟨k, hk⟩
    exact hInv.valKey k v hk
  · intro n r h hfin
    rcases hfin with ⟨k, hk⟩
    have hsome := hInv.valKey k r hk
    rw [findCleanName_free cfg _ n r h] at hsome
    exact absurd hsome (by simp)

theorem C10_witness :
    (rget (runDecls cfgNoBl ["q_1"]) "q").isSome ∧
      ¬isFinalName (runDecls cfgNoBl ["q_1"]) "a" :=
  ⟨(C10_values_are_keys cfgNoBl ["q_1"] (by decide)).1 "q" ⟨"q_1", by decide⟩,
   (C10_values_are_keys cfgNoBl ["q_1"] (by decide)).2 "a_1" "a" (by decide)⟩

end VarNameCleaner
